import Mathlib

/-!
Verification of the OpenFisca core formula engine against its specification.

The development shallowly embeds the two source units:

* `reforms.py` — the legislation-timeline patch algorithm
  (`updated_legislation_items`);
* `formulas.py` — `SimpleFormula.compute` (memoized, cycle-checked
  evaluation) and the role scatter/gather array operations
  (`cast_from_entity_to_roles`, `filter_role`, `split_by_roles`).

Calendar instants are modelled as integers (day numbers): the Python code
compares ISO date strings (whose lexicographic order is date order) and
offsets instants by whole days, so any order-isomorphic integer embedding
with `offset(±1, day) = ±1` is faithful.  The `periods` module itself is
not part of the source under verification, so period values are kept
abstract where the code only passes them around.
-/

set_option maxHeartbeats 1000000

namespace OpenFisca

/-- A legislation timeline item: `{'start': ..., 'stop': ..., 'value': ...}`
(reforms.py).  `start`/`stop` are instants modelled as integer day numbers;
`value` is the parameter value. -/
structure LegItem where
  start : Int
  stop : Int
  value : Int
deriving DecidableEq, Repr

/-- Insert an item into a list that is already sorted by `start`, before the
first element with a strictly larger key.  Together with `sortItems` this is
Python's stable `sorted(new_items, key = lambda item: item['start'])`. -/
def insertItem (x : LegItem) : List LegItem → List LegItem
  | [] => [x]
  | y :: l => if x.start ≤ y.start then x :: y :: l else y :: insertItem x l

/-- Stable sort by `start`, mirroring `sorted(new_items, key = ...)` at the
end of `updated_legislation_items` (reforms.py line 310). -/
def sortItems : List LegItem → List LegItem
  | [] => []
  | x :: l => insertItem x (sortItems l)

/-- Third `if` of the loop body of `updated_legislation_items` (reforms.py
lines 242-259): left edge overlapping are corrected and new_item inserted. -/
def updateStepLeft (startInstant stopInstant value : Int) (item : LegItem)
    (st : List LegItem × Bool) : List LegItem × Bool :=
  if item.start < startInstant ∧ item.stop ≤ stopInstant then
    let l := st.1 ++ [⟨item.start, startInstant - 1, item.value⟩]
    if st.2 then (l, st.2) else (l ++ [⟨startInstant, stopInstant, value⟩], true)
  else st

/-- Fourth `if` of the loop body (reforms.py lines 261-286): new_item
contained in item: divide, shrink left, insert, new, shrink right. -/
def updateStepContain (startInstant stopInstant value : Int) (item : LegItem)
    (st : List LegItem × Bool) : List LegItem × Bool :=
  if item.start < startInstant ∧ item.stop > stopInstant then
    let l := st.1 ++ [⟨item.start, startInstant - 1, item.value⟩]
    let p : List LegItem × Bool :=
      if st.2 then (l, st.2) else (l ++ [⟨startInstant, stopInstant, value⟩], true)
    (p.1 ++ [⟨stopInstant + 1, item.stop, item.value⟩], p.2)
  else st

/-- Fifth `if` of the loop body (reforms.py lines 287-305), commented "right
edge overlapping are corrected"; note the source really tests
`item_stop < new_item_stop` here. -/
def updateStepRight (startInstant stopInstant value : Int) (item : LegItem)
    (st : List LegItem × Bool) : List LegItem × Bool :=
  if item.start ≥ startInstant ∧ item.stop < stopInstant then
    let p : List LegItem × Bool :=
      if st.2 then st else (st.1 ++ [⟨startInstant, stopInstant, value⟩], true)
    (p.1 ++ [⟨stopInstant + 1, item.stop, item.value⟩], p.2)
  else st

/-- One iteration of the `for item in items` loop body of
`updated_legislation_items` (reforms.py lines 217-308), threading the
`new_items` accumulator and the `inserted` flag.  The first two Python
branches end in `continue`; the remaining `if` statements are sequential
(no `elif`), modelled as composition of the three stage functions above,
and the final `if ... : continue` branch (lines 306-308) is a no-op on the
accumulator. -/
def updateStep (startInstant stopInstant value : Int) (st : List LegItem × Bool)
    (item : LegItem) : List LegItem × Bool :=
  -- non-overlapping items are kept: add and skip (lines 220-228)
  if item.stop < startInstant ∨ item.start > stopInstant then
    (st.1 ++ [⟨item.start, item.stop, item.value⟩], st.2)
  -- exact matching: replace (lines 230-240)
  else if item.stop = stopInstant ∧ item.start = startInstant then
    if st.2 then st else (st.1 ++ [⟨startInstant, stopInstant, value⟩], true)
  else
    updateStepRight startInstant stopInstant value item
      (updateStepContain startInstant stopInstant value item
        (updateStepLeft startInstant stopInstant value item st))

/-- `updated_legislation_items(items, start_instant, stop_instant, value)`
(reforms.py lines 198-310): fold the loop body over `items` starting from an
empty accumulator and a cleared `inserted` flag, then re-sort by `start`. -/
def updatedLegislationItems (items : List LegItem) (startInstant stopInstant value : Int) :
    List LegItem :=
  sortItems ((items.foldl (updateStep startInstant stopInstant value) ([], false)).1)

/-! ### The formula evaluation engine (`SimpleFormula.compute`, formulas.py)

The embedding keeps the type of periods abstract: the `periods` module is an
external collaborator (not among the source files under verification), and
`SimpleFormula.compute` only passes period values around and compares cache
keys for equality.  Formula/holder identity is the variable name (one Holder,
holding one bound formula, exists per variable and simulation). -/

/-- An element of a computed numpy array: an ordinary numeric value or the
floating-point not-a-number marker (the arrays checked by
`np.isnan(np.min(array))` at formulas.py line 599 are numeric). -/
inductive Val where
  | num (z : Int)
  | nan
deriving DecidableEq, Repr

/-- A computed numpy array of values. -/
abbrev Arr := List Val

/-- Whether a cell is the not-a-number marker. -/
def Val.isNan : Val → Bool
  | .nan => true
  | .num _ => false

/-- `np.isnan(np.min(array))` for a numeric array: true iff some cell is NaN
(formulas.py line 599). -/
def hasNan (a : Arr) : Bool := a.any Val.isNan

/-- `np.arange(len(array))[np.isnan(array)]` (formulas.py line 600): the
indices of the NaN cells, in ascending order. -/
def nanIndices (a : Arr) : List Nat :=
  (List.range a.length).filter (fun i => (a.getD i (.num 0)).isNan)

/-- Insertion into a sorted list of naturals, used to model Python's
`sorted(...)` over variable names in the cycle error message. -/
def insertNat (x : Nat) : List Nat → List Nat
  | [] => [x]
  | y :: l => if x ≤ y then x :: y :: l else y :: insertNat x l

/-- `sorted(...)` over a list of variable names (formulas.py line 508). -/
def sortNat : List Nat → List Nat
  | [] => []
  | x :: l => insertNat x (sortNat l)

/-- Static description of one variable together with its bound
`SimpleFormula`: the column attributes `compute` reads — `column.name`
(variable names are modelled as `Nat`), `column.is_period_invariant`
(formulas.py line 497) and the target entity's population count
`entity.count` (line 591) — and the formula class attributes — the
dependency variable names `variables_name` (via `holder_by_variable_name`,
lines 527-534), the underlying `function` (line 579; it receives the
dependency arrays in declaration order plus the output period, covering the
optional `period` argument, and may return no array, line 584), and the
period helpers.  `outputPeriod` is the composite
`get_output_period(period)` followed by clipping to the column validity
window (lines 514-521) and `varPeriod` is `get_variable_period` (line 535);
both belong to the external period algebra, so they are kept abstract as
functions of the requested period.  Modelled from the spec: §4.4 — the
output period of the Direct variant is a function of the requested period
(and the static variable metadata) only. -/
structure FormulaVar (P : Type) where
  name : Nat
  isPeriodInvariant : Bool
  entityCount : Nat
  deps : List Nat
  func : List Arr → P → Option Arr
  outputPeriod : P → P
  varPeriod : Nat → P → P

/-- The simulation's variables (each owning one Holder with one bound
`SimpleFormula`) and the `simulation.debug` flag read by the NaN check
(formulas.py line 596).  The trace/debug logging itself (lines 608-615) has
no effect on results and is not modelled. -/
structure TaxSystem (P : Type) where
  vars : List (FormulaVar P)
  debug : Bool

/-- Look up a variable (`simulation.get_or_new_holder` resolves names to
holders; holder identity is the variable name). -/
def TaxSystem.findVar {P : Type} (sys : TaxSystem P) (id : Nat) : Option (FormulaVar P) :=
  sys.vars.find? (fun v => v.name == id)

/-- The key under which results for this variable are tracked and cached:
the requested or output period, or a sentinel ignoring the period for a
period-invariant variable.  This is `period_or_none` (formulas.py line 497)
and, modelled from the spec: §3, the Holder's cache key — for a
period-invariant variable at most one entry exists, keyed by a sentinel. -/
def periodKey {P : Type} (v : FormulaVar P) (p : P) : Option P :=
  if v.isPeriodInvariant then none else some p

/-- The Holder cache slot addressed by `holder.at_period(p)` for variable
`v`. -/
def holderKey {P : Type} (v : FormulaVar P) (p : P) : Nat × Option P :=
  (v.name, periodKey v p)

/-- Mutable evaluation state threaded through `compute`: all Holder caches
(`Modelled from the spec:` §3 — a Holder maps computed period keys to
arrays; `holder.at_period` is a live view, so an assignment to
`dated_holder.array` is a cache write and a read returns the latest entry),
the `requested_formulas_by_period` tracking map (formulas.py lines 495-500),
and a ghost log of `function` invocations (instrumentation for the
memoization claim; it never influences control flow). -/
structure EngineState (P : Type) where
  cache : List ((Nat × Option P) × Arr)
  tracking : List (Option P × List Nat)
  invocations : List Nat
deriving DecidableEq

/-- First-match association lookup (Python dict access; keys are unique in
the maps the engine builds, and writes prepend, so first match is the latest
write). -/
def assocLookup {κ α : Type} [DecidableEq κ] : List (κ × α) → κ → Option α
  | [], _ => none
  | e :: l, k => if e.1 = k then some e.2 else assocLookup l k

/-- Read the Holder cache at a slot (latest write wins). -/
def cacheLookup {P : Type} [DecidableEq P] (s : EngineState P) (k : Nat × Option P) :
    Option Arr :=
  assocLookup s.cache k

/-- `requested_formulas_by_period.get(period_or_none)` (formulas.py
line 498). -/
def trackLookup {P : Type} [DecidableEq P] (t : List (Option P × List Nat)) (k : Option P) :
    Option (List Nat) :=
  assocLookup t k

/-- Apply a mutation to the set stored under key `k` of the tracking map
(the Python code mutates the set object retrieved from the map in place). -/
def trackMod {P : Type} [DecidableEq P] (t : List (Option P × List Nat)) (k : Option P)
    (f : List Nat → List Nat) : List (Option P × List Nat) :=
  t.map (fun e => if e.1 = k then (e.1, f e.2) else e)

/-- `period_requested_formulas.add(self)` (formulas.py line 526): Python set
insertion — a no-op when the formula is already a member. -/
def trackAdd {P : Type} [DecidableEq P] (t : List (Option P × List Nat)) (k : Option P)
    (id : Nat) : List (Option P × List Nat) :=
  trackMod t k (fun l => if id ∈ l then l else l ++ [id])

/-- `period_requested_formulas.remove(self)` (formulas.py line 616). -/
def trackRemove {P : Type} [DecidableEq P] (t : List (Option P × List Nat)) (k : Option P)
    (id : Nat) : List (Option P × List Nat) :=
  trackMod t k (fun l => l.erase id)

/-- Whether formula `id` is currently marked in-progress for period key
`k`. -/
def trackMem {P : Type} [DecidableEq P] (t : List (Option P × List Nat)) (k : Option P)
    (id : Nat) : Bool :=
  match trackLookup t k with
  | some l => decide (id ∈ l)
  | none => false

/-- `requested_formulas_by_period[period_or_none] = set()` when the key is
absent (formulas.py line 500); the identity otherwise. -/
def trackEnsure {P : Type} [DecidableEq P] (t : List (Option P × List Nat)) (k : Option P) :
    List (Option P × List Nat) :=
  match trackLookup t k with
  | some _ => t
  | none => (k, []) :: t

/-- Errors raised by `SimpleFormula.compute`. -/
inductive EngineError where
  /-- the failed `assert self not in period_requested_formulas`
  (formulas.py lines 505-512), carrying `column.name` and the sorted set of
  names of the formulas in progress for the period key -/
  | cycle (name : Nat) (inProgress : List Nat)
  /-- the failed `assert lazy` for a missing input in non-lazy mode
  (formulas.py lines 540-541), carrying `column.name` and the dependency
  variable name -/
  | missingInput (name : Nat) (variableName : Nat)
  /-- the failed `assert array.size == entity.count`
  (formulas.py lines 591-594) -/
  | wrongSize (name : Nat) (got : Nat) (expected : Nat)
  /-- `NaNCreationError(column.name, entity, indices)` raised at
  formulas.py line 600 -/
  | nanCreation (name : Nat) (index : List Nat)
  /-- request for a variable the simulation does not know -/
  | unknownVariable (id : Nat)
  /-- artificial: the recursion fuel of the embedding ran out -/
  | outOfFuel
deriving DecidableEq, Repr

/-- The outcome of `SimpleFormula.compute`: the returned dated holder (its
period and its — possibly absent — array), or a raised exception. -/
inductive ComputeResult (P : Type) where
  | ok (period : P) (array : Option Arr)
  | raised (e : EngineError)
deriving DecidableEq

/-- Outcome of the dependency-resolution loop (formulas.py lines 534-552). -/
inductive DepsOutcome where
  | done (args : List Arr)
  | missing (variableName : Nat)
  | raised (e : EngineError)
deriving DecidableEq

/-- The `for variable_name, variable_holder in holder_by_variable_name`
loop of `SimpleFormula.compute` (formulas.py lines 534-552), parameterized
by the engine function used to compute one dependency at its variable
period.  (`variable_holder.compute` delegates to the dependency's own bound
formula `compute`, which performs the Holder-level cache check itself —
formulas.py lines 522-524; modelled from the spec: §4.5 step 1.)  The first
dependency resolving to an absent array stops the loop (lines 538-543); an
exception propagates (lines 580-583). -/
def computeDepsWith {P : Type}
    (computeFn : EngineState P → Nat → ComputeResult P × EngineState P) :
    EngineState P → List Nat → List Arr → DepsOutcome × EngineState P
  | s, [], args => (.done args, s)
  | s, d :: ds, args =>
      match computeFn s d with
      | (.raised e, s1) => (.raised e, s1)
      | (.ok _ none, s1) => (.missing d, s1)
      | (.ok _ (some arr), s1) => computeDepsWith computeFn s1 ds (args ++ [arr])

/-- The body of `SimpleFormula.compute` after the in-progress guard
(formulas.py lines 514-618): compute the output period, return the cached
array if the Holder already has one (lines 522-524), otherwise mark the
formula in progress (line 526), resolve the dependencies (lines 534-552),
invoke `function` (lines 578-583; a raising `function` is not modelled — the
modelled NaN and shape validations already exercise every raising exit
path), validate the result (lines 588-602), store it (lines 604-606) and
unmark (line 616).  There is no `try/finally`: the raising exits skip the
removal at line 616.  (The `assert` statements on the output period at
lines 515-520 concern the external period algebra and are modelled as
satisfied; the dtype cast at lines 604-605 belongs to the external column
metadata.) -/
def computeBody {P : Type} [DecidableEq P] (sys : TaxSystem P)
    (computeFn : EngineState P → Nat → P → ComputeResult P × EngineState P)
    (s : EngineState P) (v : FormulaVar P) (key : Option P) (period : P) (lazy : Bool) :
    ComputeResult P × EngineState P :=
  let op := v.outputPeriod period
  match cacheLookup s (holderKey v op) with
  | some arr => (.ok op (some arr), s)
  | none =>
    let s1 : EngineState P := { s with tracking := trackAdd s.tracking key v.name }
    match computeDepsWith (fun s2 d => computeFn s2 d (v.varPeriod d op)) s1 v.deps [] with
    | (.raised e, s2) => (.raised e, s2)
    | (.missing d, s2) =>
        if lazy then
          (.ok op (cacheLookup s2 (holderKey v op)),
            { s2 with tracking := trackRemove s2.tracking key v.name })
        else (.raised (.missingInput v.name d), s2)
    | (.done args, s2) =>
        let s3 : EngineState P := { s2 with invocations := s2.invocations ++ [v.name] }
        match v.func args op with
        | none =>
            (.ok op (cacheLookup s3 (holderKey v op)),
              { s3 with tracking := trackRemove s3.tracking key v.name })
        | some arr =>
            if arr.length ≠ v.entityCount then
              (.raised (.wrongSize v.name arr.length v.entityCount), s3)
            else if !sys.debug && hasNan arr then
              (.raised (.nanCreation v.name (nanIndices arr)), s3)
            else
              let s4 : EngineState P := { s3 with cache := (holderKey v op, arr) :: s3.cache }
              (.ok op (some arr), { s4 with tracking := trackRemove s4.tracking key v.name })

/-- `SimpleFormula.compute(lazy, period, requested_formulas_by_period)`
(formulas.py lines 487-618), with explicit recursion fuel (the Python code
recurses on the call stack; every claim below is settled on runs where the
fuel is not exhausted).  Lines 495-512: look up the in-progress set for
`period_or_none`, creating an empty entry when absent; if this formula is
already in the set, return `holder.at_period(period)` without recursing when
`lazy`, and raise the cycle assertion naming the column and the sorted
in-progress variable names otherwise.  Then delegate to `computeBody`. -/
def compute {P : Type} [DecidableEq P] (sys : TaxSystem P) :
    Nat → EngineState P → Nat → P → Bool → ComputeResult P × EngineState P
  | 0, s, _, _, _ => (.raised .outOfFuel, s)
  | fuel + 1, s, id, period, lazy =>
    match sys.findVar id with
    | none => (.raised (.unknownVariable id), s)
    | some v =>
      match trackLookup s.tracking (periodKey v period) with
      | none =>
          computeBody sys (fun s2 d p2 => compute sys fuel s2 d p2 lazy)
            { s with tracking := (periodKey v period, []) :: s.tracking } v
            (periodKey v period) period lazy
      | some inSet =>
          if v.name ∈ inSet then
            if lazy then (.ok period (cacheLookup s (holderKey v period)), s)
            else (.raised (.cycle v.name (sortNat inSet.dedup)), s)
          else
            computeBody sys (fun s2 d p2 => compute sys fuel s2 d p2 lazy) s v
              (periodKey v period) period lazy

/-- Every in-progress set in the tracking map is duplicate-free (Python sets
cannot hold duplicates). -/
def TrackNodup {P : Type} [DecidableEq P] (t : List (Option P × List Nat)) : Prop :=
  ∀ k l, trackLookup t k = some l → l.Nodup

/-- Two tracking maps carry the same in-progress markers. -/
def TrackSame {P : Type} [DecidableEq P] (t t2 : List (Option P × List Nat)) : Prop :=
  ∀ k id, trackMem t2 k id = trackMem t k id

/-- Every period key present in the first tracking map is present in the
second (the engine creates empty entries but never deletes a key). -/
def TrackMono {P : Type} [DecidableEq P] (t t2 : List (Option P × List Nat)) : Prop :=
  ∀ k, (trackLookup t k).isSome = true → (trackLookup t2 k).isSome = true

/-- Whether the dependency loop ended in a propagating exception. -/
def DepsOutcome.isRaised : DepsOutcome → Bool
  | .raised _ => true
  | _ => false

/-- An evaluation state with no variable marked in progress and nothing
cached: the state at the start of a top-level request (over `P := Int`). -/
def emptyState : EngineState Int := ⟨[], [], []⟩

/-- A one-variable system whose formula returns the constant array `[7]`:
variable `0`, not period-invariant, entity count 1, no dependencies,
identity output period. -/
def constSystem : TaxSystem Int :=
  ⟨[⟨0, false, 1, [], fun _ _ => some [.num 7], fun p => p, fun _ p => p⟩], false⟩

/-- A one-variable system whose formula returns an array of the wrong
length: entity count 2, but the function returns the 1-element array
`[1]`. -/
def wrongSizeSystem : TaxSystem Int :=
  ⟨[⟨0, false, 2, [], fun _ _ => some [.num 1], fun p => p, fun _ p => p⟩], false⟩

/-- A one-variable system (debug mode off) whose formula returns the array
`[NaN]`. -/
def nanFormulaSystem : TaxSystem Int :=
  ⟨[⟨0, false, 1, [], fun _ _ => some [.nan], fun p => p, fun _ p => p⟩], false⟩


/-! ### Role scatter/gather (formulas.py lines 429-478, 650-685, 752-792)

An individuals population is a list of persons, each carrying its
`entity_index_array` cell (the person's group-entity row) and its role-code
cell; the two parallel numpy arrays of the source are zipped into one list
of pairs.  Value arrays are lists of integers.  All hypotheses about array
sizes and index bounds in the theorems below mirror the `assert` statements
and numpy's own bounds checking. -/

/-- One individual of the persons entity: its group row
(`entity_index_array` cell) and its role code. -/
structure Person where
  groupRow : Nat
  roleCode : Nat
deriving DecidableEq, Repr

/-- A group entity's static data: its population count (`entity.count`) and
its declared number of roles (`entity.roles_count`). -/
structure GroupEntity where
  count : Nat
  rolesCount : Nat
deriving DecidableEq, Repr

/-- The vectorized masked assignment
`target_array[boolean_filter] = array[entity_index_array[boolean_filter]]`
with `boolean_filter = role_array == role` (formulas.py line 471-473):
per person position, cells of persons holding `role` receive the group
array's value at the person's group row, other cells keep the target's
value. -/
def castWrite (array : List Int) (role : Nat) : List Person → List Int → List Int
  | p :: ps, t :: ts =>
      (if p.roleCode = role then array.getD p.groupRow 0 else t) ::
        castWrite array role ps ts
  | _, ts => ts

/-- `SimpleFormula.cast_from_entity_to_roles(array, default, roles)`
(formulas.py lines 434-478): start from a persons-sized array filled with
`default` (lines 465-466) and apply the masked assignment for each role in
`roles` (lines 470-473). -/
def cast_from_entity_to_roles (persons : List Person) (array : List Int) (default : Int)
    (roles : List Nat) : List Int :=
  roles.foldl (fun target role => castWrite array role persons target)
    (List.replicate persons.length default)

/-- `SimpleFormula.cast_from_entity_to_role(array, default, role)`
(formulas.py lines 429-432): the roles list `[role]`. -/
def cast_from_entity_to_role (persons : List Person) (array : List Int) (default : Int)
    (role : Nat) : List Int :=
  cast_from_entity_to_roles persons array default [role]

/-- The vectorized scatter
`target_array[entity_index_array[boolean_filter]] = array[boolean_filter]`
with `boolean_filter = role_array == role` (formulas.py lines 678-680):
for each person holding `role`, in ascending person order, write the
person's value into the target at the person's group row (with duplicate
rows, numpy's fancy assignment leaves the last write). -/
def scatterWrite (role : Nat) : List Person → List Int → List Int → List Int
  | p :: ps, a :: as2, t =>
      scatterWrite role ps as2 (if p.roleCode = role then t.set p.groupRow a else t)
  | _, _, t => t

/-- `SimpleFormula.filter_role(array, default, role)` (formulas.py
lines 650-685): start from an entity-sized array filled with `default`
(lines 676-677) and scatter the cells of persons holding `role`. -/
def filter_role (persons : List Person) (entityCount : Nat) (array : List Int)
    (default : Int) (role : Nat) : List Int :=
  scatterWrite role persons array (List.replicate entityCount default)

/-- `SimpleFormula.split_by_roles(array, default, roles)` (formulas.py
lines 752-792): one scattered entity-array per role, keyed by role; when
`roles` is `None`, "to ensure that existing formulas don't fail, ensure
there is always at least 11 roles": `roles = range(max(entity.roles_count,
11))` (line 780). -/
def split_by_roles (persons : List Person) (entity : GroupEntity) (array : List Int)
    (default : Int) (roles : Option (List Nat)) : List (Nat × List Int) :=
  let rolesList := match roles with
    | some rs => rs
    | none => List.range (max entity.rolesCount 11)
  rolesList.map (fun role =>
    (role, scatterWrite role persons array (List.replicate entity.count default)))


end OpenFisca

namespace OpenFisca

/-! ### Lemmas about the re-sort at the end of the patch -/

theorem insertItem_perm (x : LegItem) (l : List LegItem) :
    List.Perm (insertItem x l) (x :: l) := by
  induction l with
  | nil => simp [insertItem]
  | cons y l ih =>
      by_cases h : x.start ≤ y.start
      · simp [insertItem, h]
      · simp only [insertItem, if_neg h]
        exact (ih.cons y).trans (List.Perm.swap x y l)

theorem sortItems_perm (l : List LegItem) : List.Perm (sortItems l) l := by
  induction l with
  | nil => simp [sortItems]
  | cons x l ih => exact (insertItem_perm x (sortItems l)).trans (ih.cons x)

theorem insertItem_pairwise {x : LegItem} {l : List LegItem}
    (h : l.Pairwise (fun a b => a.start ≤ b.start)) :
    (insertItem x l).Pairwise (fun a b => a.start ≤ b.start) := by
  induction l with
  | nil => simp [insertItem]
  | cons y l ih =>
      rcases List.pairwise_cons.1 h with ⟨hy, hl⟩
      by_cases hxy : x.start ≤ y.start
      · simp only [insertItem, if_pos hxy]
        refine List.pairwise_cons.2 ⟨?_, h⟩
        intro z hz
        rcases List.mem_cons.1 hz with rfl | hz
        · exact hxy
        · exact le_trans hxy (hy z hz)
      · simp only [insertItem, if_neg hxy]
        refine List.pairwise_cons.2 ⟨?_, ih hl⟩
        intro z hz
        rcases List.mem_cons.1 ((insertItem_perm x l).mem_iff.1 hz) with rfl | hz
        · omega
        · exact hy z hz

theorem sortItems_pairwise (l : List LegItem) :
    (sortItems l).Pairwise (fun a b => a.start ≤ b.start) := by
  induction l with
  | nil => simp [sortItems]
  | cons x l ih => exact insertItem_pairwise ih

theorem sortItems_eq_self {l : List LegItem}
    (h : l.Pairwise (fun a b => a.start ≤ b.start)) : sortItems l = l := by
  induction l with
  | nil => rfl
  | cons x l ih =>
      rcases List.pairwise_cons.1 h with ⟨hx, hl⟩
      rw [sortItems, ih hl]
      cases l with
      | nil => rfl
      | cons y l => rw [insertItem, if_pos (hx y (List.mem_cons_self y l))]

/-! ### Invariant of the patch loop

Every item appended by `updateStep` is either disjoint from the new interval
`[ns, ne]` in the sense of the loop's own first test (`stop < ns ∨ start > ne`)
or is exactly the new item `⟨ns, ne, v⟩`; and the accumulator holds an item
positioned exactly at `(ns, ne)` precisely when the `inserted` flag is set. -/

/-- The loop invariant: every accumulated item is disjoint from the patched
interval or equal to the new item, and the number of items positioned exactly
at `(ns, ne)` is governed by the `inserted` flag. -/
def StepInv (ns ne v : Int) (st : List LegItem × Bool) : Prop :=
  (∀ x ∈ st.1, (x.stop < ns ∨ x.start > ne) ∨ x = ⟨ns, ne, v⟩) ∧
    st.1.countP (fun x => decide (x.start = ns ∧ x.stop = ne)) =
      if st.2 then 1 else 0

theorem StepInv.append_disjoint {ns ne v : Int} {st : List LegItem × Bool}
    (h : StepInv ns ne v st) (a : LegItem)
    (ha : a.stop < ns ∨ a.start > ne) (hne : ¬(a.start = ns ∧ a.stop = ne)) :
    StepInv ns ne v (st.1 ++ [a], st.2) := by
  obtain ⟨h1, h2⟩ := h
  constructor
  · intro x hx
    rcases List.mem_append.1 hx with hx | hx
    · exact h1 x hx
    · rcases List.mem_singleton.1 hx with rfl
      exact Or.inl ha
  · simp only [List.countP_append, List.countP_cons, List.countP_nil, h2,
      decide_eq_true_eq, hne, if_false]
    simp

theorem StepInv.insert_new {ns ne v : Int} {st : List LegItem × Bool}
    (h : StepInv ns ne v st) (hflag : st.2 = false) :
    StepInv ns ne v (st.1 ++ [⟨ns, ne, v⟩], true) := by
  obtain ⟨h1, h2⟩ := h
  constructor
  · intro x hx
    rcases List.mem_append.1 hx with hx | hx
    · exact h1 x hx
    · rcases List.mem_singleton.1 hx with rfl
      exact Or.inr rfl
  · rw [hflag] at h2
    simp only [List.countP_append, List.countP_cons, List.countP_nil, h2]
    simp

theorem updateStepLeft_inv {ns ne v : Int} (hns : ns ≤ ne) (item : LegItem)
    {st : List LegItem × Bool} (h : StepInv ns ne v st) :
    StepInv ns ne v (updateStepLeft ns ne v item st) := by
  unfold updateStepLeft
  split_ifs with hc hflag
  · simpa [hflag] using
      h.append_disjoint ⟨item.start, ns - 1, item.value⟩ (by simp <;> omega) (by simp <;> omega)
  · exact (h.append_disjoint ⟨item.start, ns - 1, item.value⟩ (by simp <;> omega)
      (by simp <;> omega)).insert_new (by simpa using hflag)
  · exact h

theorem updateStepContain_inv {ns ne v : Int} (hns : ns ≤ ne) (item : LegItem)
    {st : List LegItem × Bool} (h : StepInv ns ne v st) :
    StepInv ns ne v (updateStepContain ns ne v item st) := by
  unfold updateStepContain
  split_ifs with hc hflag
  · have h3 := h.append_disjoint ⟨item.start, ns - 1, item.value⟩ (by simp <;> omega)
      (by simp <;> omega)
    simpa [hflag] using
      h3.append_disjoint ⟨ne + 1, item.stop, item.value⟩ (by simp <;> omega) (by simp <;> omega)
  · have h3 := (h.append_disjoint ⟨item.start, ns - 1, item.value⟩ (by simp <;> omega)
      (by simp <;> omega)).insert_new (by simpa using hflag)
    simpa using
      h3.append_disjoint ⟨ne + 1, item.stop, item.value⟩ (by simp <;> omega) (by simp <;> omega)
  · exact h

theorem updateStepRight_inv {ns ne v : Int} (hns : ns ≤ ne) (item : LegItem)
    {st : List LegItem × Bool} (h : StepInv ns ne v st) :
    StepInv ns ne v (updateStepRight ns ne v item st) := by
  unfold updateStepRight
  split_ifs with hc hflag
  · simpa [hflag] using
      h.append_disjoint ⟨ne + 1, item.stop, item.value⟩ (by simp <;> omega) (by simp <;> omega)
  · have h3 := h.insert_new (by simpa using hflag)
    simpa using
      h3.append_disjoint ⟨ne + 1, item.stop, item.value⟩ (by simp <;> omega) (by simp <;> omega)
  · exact h

theorem updateStep_inv {ns ne v : Int} (hns : ns ≤ ne) (item : LegItem)
    {st : List LegItem × Bool} (h : StepInv ns ne v st) :
    StepInv ns ne v (updateStep ns ne v st item) := by
  unfold updateStep
  split_ifs with hc hex hflag
  · exact h.append_disjoint ⟨item.start, item.stop, item.value⟩ (by simpa using hc)
      (by simp <;> omega)
  · exact h
  · exact h.insert_new (by simpa using hflag)
  · exact updateStepRight_inv hns item (updateStepContain_inv hns item
      (updateStepLeft_inv hns item h))

theorem foldl_updateStep_inv {ns ne v : Int} (hns : ns ≤ ne) (items : List LegItem)
    {st : List LegItem × Bool} (h : StepInv ns ne v st) :
    StepInv ns ne v (items.foldl (updateStep ns ne v) st) := by
  induction items generalizing st with
  | nil => exact h
  | cons item items ih => exact ih (updateStep_inv hns item h)

/-- Running the patch loop over a list every member of which is already either
disjoint from `[ns, ne]` or equal to the new item (present at most once)
reproduces that list behind the accumulator. -/
theorem foldl_updateStep_id {ns ne v : Int} (hns : ns ≤ ne) :
    ∀ (L acc : List LegItem) (ins : Bool),
      (∀ x ∈ L, (x.stop < ns ∨ x.start > ne) ∨ x = ⟨ns, ne, v⟩) →
      (ins = true → L.countP (fun x => decide (x.start = ns ∧ x.stop = ne)) = 0) →
      (ins = false → L.countP (fun x => decide (x.start = ns ∧ x.stop = ne)) ≤ 1) →
      (L.foldl (updateStep ns ne v) (acc, ins)).1 = acc ++ L := by
  intro L
  induction L with
  | nil => intro acc ins _ _ _; simp
  | cons x L ih =>
      intro acc ins hmem htrue hfalse
      rcases hmem x (List.mem_cons_self x L) with hx | rfl
      · have hxcount : ¬(x.start = ns ∧ x.stop = ne) := by omega
        have hstep : updateStep ns ne v (acc, ins) x = (acc ++ [x], ins) := by
          unfold updateStep
          rw [if_pos hx]
        rw [List.foldl_cons, hstep,
          ih (acc ++ [x]) ins (fun y hy => hmem y (List.mem_cons_of_mem x hy))
            (fun h => by
              have h0 := htrue h
              simp only [List.countP_cons, decide_eq_true_eq, hxcount, if_false] at h0
              simpa using h0)
            (fun h => by
              have h0 := hfalse h
              simp only [List.countP_cons, decide_eq_true_eq, hxcount, if_false] at h0
              simpa using h0),
          List.append_assoc]
        rfl
      · have hxcount :
            List.countP (fun x => decide (x.start = ns ∧ x.stop = ne))
                ((⟨ns, ne, v⟩ : LegItem) :: L) =
              L.countP (fun x => decide (x.start = ns ∧ x.stop = ne)) + 1 := by
          simp [List.countP_cons]
        cases ins with
        | true =>
            exfalso
            have h0 := htrue rfl
            rw [hxcount] at h0
            omega
        | false =>
            have hstep : updateStep ns ne v (acc, false) (⟨ns, ne, v⟩ : LegItem) =
                (acc ++ [(⟨ns, ne, v⟩ : LegItem)], true) := by
              unfold updateStep
              rw [if_neg (by simp <;> omega), if_pos (by simp)]
              simp
            have hL0 : L.countP (fun x => decide (x.start = ns ∧ x.stop = ne)) = 0 := by
              have h0 := hfalse rfl
              rw [hxcount] at h0
              omega
            rw [List.foldl_cons, hstep]
            have hrec := ih (acc ++ [(⟨ns, ne, v⟩ : LegItem)]) true
              (fun y hy => hmem y (List.mem_cons_of_mem _ hy))
              (fun _ => hL0) (by intro h; cases h)
            rw [hrec, List.append_assoc]
            rfl

/-! ### Claims about the legislation patch (`updated_legislation_items`) -/

/-- C3.  The overall patch contract fails on the code: when the new interval
is disjoint from every existing item — here, when the input timeline is
empty — the returned list does not contain the new item at all (the
`inserted` flag is only ever set inside an overlap branch, and no trailing
append exists), contradicting the function's own docstring "if the period
matches no existing item, the new item is yielded as-is".  This theorem
evaluates the code at the failing input: patching the empty timeline with
`[0, 10] := 5` returns the empty list instead of `[⟨0, 10, 5⟩]`. -/
theorem patch_empty_timeline_loses_new_item :
    updatedLegislationItems [] 0 10 5 = [] := by decide

/-- C4.  The right-overlap case fails on the code: for an existing item with
`item.start ≥ new.start`, `item.start ≤ new.stop` and `item.stop > new.stop`
(here `⟨5, 20, 10⟩` against the new interval `[0, 10] := 99`) no branch of the
loop fires — the branch commented "right edge overlapping are corrected"
tests `item_stop < new_item_stop` instead of `>` — so the existing item is
silently dropped and the new item is never inserted: the result is `[]`
instead of `[⟨0, 10, 99⟩, ⟨11, 20, 10⟩]`. -/
theorem patch_right_overlap_loses_everything :
    updatedLegislationItems [⟨5, 20, 10⟩] 0 10 99 = [] := by decide

/-- C5.  Containment case: patching a timeline consisting of one item that
starts strictly before and stops strictly after the new interval `[ns, ne]`
splits it into the left remainder `[item.start, ns - 1]` with the old value,
the new item `⟨ns, ne, v⟩`, and the right remainder `[ne + 1, item.stop]`
with the old value, in ascending start order. -/
theorem patch_containment_splits (item : LegItem) (ns ne v : Int)
    (h1 : item.start < ns) (h2 : ns ≤ ne) (h3 : ne < item.stop) :
    updatedLegislationItems [item] ns ne v =
      [⟨item.start, ns - 1, item.value⟩, ⟨ns, ne, v⟩, ⟨ne + 1, item.stop, item.value⟩] := by
  have hstep : updateStep ns ne v ([], false) item =
      ([⟨item.start, ns - 1, item.value⟩, ⟨ns, ne, v⟩, ⟨ne + 1, item.stop, item.value⟩],
        true) := by
    unfold updateStep updateStepLeft updateStepContain updateStepRight
    rw [if_neg (by omega : ¬(item.stop < ns ∨ item.start > ne)),
      if_neg (by omega : ¬(item.stop = ne ∧ item.start = ns)),
      if_neg (by omega : ¬(item.start < ns ∧ item.stop ≤ ne)),
      if_pos (⟨h1, h3⟩ : item.start < ns ∧ item.stop > ne),
      if_neg (by omega : ¬(item.start ≥ ns ∧ item.stop < ne))]
    simp
  show sortItems (([item].foldl (updateStep ns ne v) ([], false)).1) = _
  rw [List.foldl_cons, List.foldl_nil, hstep]
  refine sortItems_eq_self ?_
  simp [List.pairwise_cons]
  omega

/-- C5, witness: the spec's concrete example with instants as day numbers
counted from 2010-01-01 (so 2010-01-01 ↦ 0, 2010-12-31 ↦ 364,
2011-01-01 ↦ 365, 2011-12-31 ↦ 729, 2012-01-01 ↦ 730, 2012-12-31 ↦ 1095):
patching `[(2010-01-01, 2012-12-31, 10)]` with `(2011-01-01, 2011-12-31, 20)`
yields exactly the three-way split. -/
theorem patch_containment_splits_witness :
    (0 : Int) < 365 ∧ (365 : Int) ≤ 729 ∧ (729 : Int) < 1095 ∧
      updatedLegislationItems [⟨0, 1095, 10⟩] 365 729 20 =
        [⟨0, 364, 10⟩, ⟨365, 729, 20⟩, ⟨730, 1095, 10⟩] :=
  ⟨by decide, by decide, by decide, by
    rw [patch_containment_splits ⟨0, 1095, 10⟩ 365 729 20 (by decide) (by decide) (by decide)]
    decide⟩

/-- C6.  The patch is idempotent: applying `updated_legislation_items` a
second time with the identical `start`, `stop` and `value` to the result of a
first application returns that result unchanged.  (This holds for every input
`items` list, in particular for every ordered non-overlapping one: every item
the first pass emits is either disjoint from `[ns, ne]` — left remainders
stop at `ns - 1`, right remainders start at `ne + 1` — or is the new item
itself, emitted at most once, so the second pass copies every item and
re-sorting a sorted list is the identity.) -/
theorem patch_idempotent (items : List LegItem) (ns ne v : Int) (hns : ns ≤ ne) :
    updatedLegislationItems (updatedLegislationItems items ns ne v) ns ne v =
      updatedLegislationItems items ns ne v := by
  have hinv : StepInv ns ne v (items.foldl (updateStep ns ne v) ([], false)) :=
    foldl_updateStep_inv hns items ⟨by simp, by simp⟩
  have hperm := sortItems_perm (items.foldl (updateStep ns ne v) ([], false)).1
  have hmem : ∀ x ∈ sortItems (items.foldl (updateStep ns ne v) ([], false)).1,
      (x.stop < ns ∨ x.start > ne) ∨ x = ⟨ns, ne, v⟩ :=
    fun x hx => hinv.1 x (hperm.mem_iff.1 hx)
  have hcount : (sortItems (items.foldl (updateStep ns ne v) ([], false)).1).countP
      (fun x => decide (x.start = ns ∧ x.stop = ne)) =
        if (items.foldl (updateStep ns ne v) ([], false)).2 then 1 else 0 := by
    rw [hperm.countP_eq]
    exact hinv.2
  have hkey :
      updatedLegislationItems (updatedLegislationItems items ns ne v) ns ne v =
        sortItems ([] ++ sortItems (items.foldl (updateStep ns ne v) ([], false)).1) := by
    show sortItems (((sortItems (items.foldl (updateStep ns ne v) ([], false)).1).foldl
        (updateStep ns ne v) ([], false)).1) = _
    rw [foldl_updateStep_id hns (sortItems (items.foldl (updateStep ns ne v) ([], false)).1)
      [] false hmem (fun h => by cases h) (fun _ => by rw [hcount]; split <;> omega)]
  rw [hkey]
  simpa using sortItems_eq_self (sortItems_pairwise _)

/-- C6, witness: re-patching `[(0, 100, 1)]` with `[10, 20] := 2` a second
time reproduces the first result. -/
theorem patch_idempotent_witness :
    (10 : Int) ≤ 20 ∧
      updatedLegislationItems (updatedLegislationItems [⟨0, 100, 1⟩] 10 20 2) 10 20 2 =
        updatedLegislationItems [⟨0, 100, 1⟩] 10 20 2 :=
  ⟨by decide, patch_idempotent [⟨0, 100, 1⟩] 10 20 2 (by decide)⟩

/-! ### Tracking-map lemmas -/

theorem trackLookup_trackMod {P : Type} [DecidableEq P] (t : List (Option P × List Nat))
    (k : Option P) (f : List Nat → List Nat) (k2 : Option P) :
    trackLookup (trackMod t k f) k2 =
      if k2 = k then (trackLookup t k2).map f else trackLookup t k2 := by
  induction t with
  | nil => simp [trackMod, trackLookup, assocLookup]
  | cons e t ih =>
      obtain ⟨ek, ev⟩ := e
      simp only [trackMod, trackLookup, List.map_cons, assocLookup] at ih ⊢
      by_cases h1 : ek = k
      · subst h1
        by_cases h2 : ek = k2
        · subst h2
          simp [assocLookup]
        · have h2s : ¬k2 = ek := fun h => h2 h.symm
          simp [assocLookup, h2, h2s, ih]
      · have h1s : ¬k = ek := fun h => h1 h.symm
        by_cases h2 : ek = k2
        · subst h2
          have h1s2 : ¬ek = k := h1
          simp [assocLookup, h1, h1s2]
        · simp only [if_neg h1, assocLookup, if_neg h2, ih]

theorem trackLookup_consEmpty {P : Type} [DecidableEq P] (t : List (Option P × List Nat))
    (k k2 : Option P) :
    trackLookup (((k, []) :: t : List (Option P × List Nat))) k2 =
      if k = k2 then some [] else trackLookup t k2 := by
  simp [trackLookup, assocLookup]

theorem trackMem_trackAdd_self {P : Type} [DecidableEq P]
    {t : List (Option P × List Nat)} {k : Option P}
    (h : (trackLookup t k).isSome = true) (id : Nat) :
    trackMem (trackAdd t k id) k id = true := by
  unfold trackMem trackAdd
  rw [trackLookup_trackMod, if_pos rfl]
  cases hl : trackLookup t k with
  | none => rw [hl] at h; simp at h
  | some l =>
      simp only [Option.map_some']
      split_ifs with hmem <;> simp [hmem]

theorem trackMem_trackAdd_other {P : Type} [DecidableEq P]
    (t : List (Option P × List Nat)) (k : Option P) (id : Nat) (k2 : Option P) (id2 : Nat)
    (h : k2 ≠ k ∨ id2 ≠ id) :
    trackMem (trackAdd t k id) k2 id2 = trackMem t k2 id2 := by
  unfold trackMem trackAdd
  rw [trackLookup_trackMod]
  rcases h with h | h
  · rw [if_neg h]
  · by_cases hk : k2 = k
    · rw [if_pos hk]
      cases hl : trackLookup t k2 with
      | none => simp
      | some l =>
          simp only [Option.map_some']
          split_ifs with hmem <;> simp [h]
    · rw [if_neg hk]

theorem trackMem_trackRemove_self {P : Type} [DecidableEq P]
    {t : List (Option P × List Nat)} {k : Option P}
    (hnd : ∀ l, trackLookup t k = some l → l.Nodup) (id : Nat) :
    trackMem (trackRemove t k id) k id = false := by
  unfold trackMem trackRemove
  rw [trackLookup_trackMod, if_pos rfl]
  cases hl : trackLookup t k with
  | none => simp
  | some l =>
      simp only [Option.map_some']
      simpa using (hnd l hl).not_mem_erase

theorem trackMem_trackRemove_other {P : Type} [DecidableEq P]
    (t : List (Option P × List Nat)) (k : Option P) (id : Nat) (k2 : Option P) (id2 : Nat)
    (h : k2 ≠ k ∨ id2 ≠ id) :
    trackMem (trackRemove t k id) k2 id2 = trackMem t k2 id2 := by
  unfold trackMem trackRemove
  rw [trackLookup_trackMod]
  rcases h with h | h
  · rw [if_neg h]
  · by_cases hk : k2 = k
    · rw [if_pos hk]
      cases hl : trackLookup t k2 with
      | none => simp
      | some l => simp [List.mem_erase_of_ne h]
    · rw [if_neg hk]

theorem trackMem_consEmpty {P : Type} [DecidableEq P] {t : List (Option P × List Nat)}
    {k : Option P} (h : trackLookup t k = none) (k2 : Option P) (id : Nat) :
    trackMem (((k, []) :: t : List (Option P × List Nat))) k2 id = trackMem t k2 id := by
  unfold trackMem
  rw [trackLookup_consEmpty]
  by_cases hk : k = k2
  · subst hk
    rw [if_pos rfl, h]
    simp
  · rw [if_neg hk]

theorem trackNodup_trackMod {P : Type} [DecidableEq P]
    {t : List (Option P × List Nat)} {k : Option P} {f : List Nat → List Nat}
    (hf : ∀ l, l.Nodup → (f l).Nodup) (h : TrackNodup t) :
    TrackNodup (trackMod t k f) := by
  intro k2 l hl
  rw [trackLookup_trackMod] at hl
  split_ifs at hl with hk
  · cases hl2 : trackLookup t k2 with
    | none => rw [hl2] at hl; cases hl
    | some l2 =>
        rw [hl2] at hl
        simp only [Option.map_some', Option.some.injEq] at hl
        exact hl ▸ hf l2 (h k2 l2 hl2)
  · exact h k2 l hl

theorem trackNodup_trackAdd {P : Type} [DecidableEq P]
    {t : List (Option P × List Nat)} (k : Option P) (id : Nat) (h : TrackNodup t) :
    TrackNodup (trackAdd t k id) := by
  refine trackNodup_trackMod ?_ h
  intro l hl
  split_ifs with hmem
  · exact hl
  · exact (List.perm_append_singleton id l).nodup_iff.2 (List.nodup_cons.2 ⟨hmem, hl⟩)

theorem trackNodup_trackRemove {P : Type} [DecidableEq P]
    {t : List (Option P × List Nat)} (k : Option P) (id : Nat) (h : TrackNodup t) :
    TrackNodup (trackRemove t k id) :=
  trackNodup_trackMod (fun _ hl => hl.erase id) h

theorem trackNodup_consEmpty {P : Type} [DecidableEq P]
    {t : List (Option P × List Nat)} (k : Option P) (h : TrackNodup t) :
    TrackNodup (((k, []) :: t : List (Option P × List Nat))) := by
  intro k2 l hl
  rw [trackLookup_consEmpty] at hl
  split_ifs at hl with hk
  · cases hl
    exact List.nodup_nil
  · exact h k2 l hl

theorem trackMono_trackMod {P : Type} [DecidableEq P] (t : List (Option P × List Nat))
    (k : Option P) (f : List Nat → List Nat) : TrackMono t (trackMod t k f) := by
  intro k2 h
  rw [trackLookup_trackMod]
  split_ifs <;> simpa using h

theorem trackMono_trackRemove {P : Type} [DecidableEq P] (t : List (Option P × List Nat))
    (k : Option P) (id : Nat) : TrackMono t (trackRemove t k id) :=
  trackMono_trackMod t k _

theorem trackMono_consEmpty {P : Type} [DecidableEq P] (t : List (Option P × List Nat))
    (k : Option P) : TrackMono t (((k, []) :: t : List (Option P × List Nat))) := by
  intro k2 h
  rw [trackLookup_consEmpty]
  split_ifs <;> simp_all

theorem trackMono_refl {P : Type} [DecidableEq P] (t : List (Option P × List Nat)) :
    TrackMono t t := fun _ h => h

theorem trackMono_comp {P : Type} [DecidableEq P] {t t2 t3 : List (Option P × List Nat)}
    (h1 : TrackMono t t2) (h2 : TrackMono t2 t3) : TrackMono t t3 :=
  fun k h => h2 k (h1 k h)

theorem trackSame_refl {P : Type} [DecidableEq P] (t : List (Option P × List Nat)) :
    TrackSame t t := fun _ _ => Eq.refl _

theorem trackSame_comp {P : Type} [DecidableEq P] {t t2 t3 : List (Option P × List Nat)}
    (h1 : TrackSame t t2) (h2 : TrackSame t2 t3) : TrackSame t t3 :=
  fun k id => (h2 k id).trans (h1 k id)

/-! ### Engine lemmas: the tracking map across `compute`

`compute` never deletes a period key; it preserves duplicate-freeness of the
in-progress sets; and on every *returning* run (as opposed to a raising one)
it restores exactly the in-progress markers it started from. -/

theorem trackMem_of_lookup {P : Type} [DecidableEq P] {t : List (Option P × List Nat)}
    {k : Option P} {l : List Nat} (h : trackLookup t k = some l) (id : Nat) :
    trackMem t k id = decide (id ∈ l) := by
  unfold trackMem
  rw [h]

theorem computeDepsWith_track {P : Type} [DecidableEq P]
    (computeFn : EngineState P → Nat → ComputeResult P × EngineState P)
    (hfn : ∀ s2 d r2 s3, computeFn s2 d = (r2, s3) →
      (TrackNodup s2.tracking → TrackNodup s3.tracking) ∧
      TrackMono s2.tracking s3.tracking ∧
      (∀ op a, r2 = .ok op a → TrackNodup s2.tracking → TrackSame s2.tracking s3.tracking)) :
    ∀ (ds : List Nat) (s : EngineState P) (args : List Arr) (o : DepsOutcome)
      (s4 : EngineState P), computeDepsWith computeFn s ds args = (o, s4) →
      (TrackNodup s.tracking → TrackNodup s4.tracking) ∧
      TrackMono s.tracking s4.tracking ∧
      (o.isRaised = false → TrackNodup s.tracking → TrackSame s.tracking s4.tracking) := by
  intro ds
  induction ds with
  | nil =>
      intro s args o s4 h
      simp only [computeDepsWith] at h
      cases h
      exact ⟨fun h => h, trackMono_refl _, fun _ _ => trackSame_refl _⟩
  | cons d ds ih =>
      intro s args o s4 h
      simp only [computeDepsWith] at h
      cases hc : computeFn s d with
      | mk r2 s1 =>
          rw [hc] at h
          obtain ⟨hnd1, hmono1, hsame1⟩ := hfn s d r2 s1 hc
          cases r2 with
          | raised e =>
              cases h
              exact ⟨hnd1, hmono1, fun hr => by cases hr⟩
          | ok p2 a2 =>
              cases a2 with
              | none =>
                  cases h
                  exact ⟨hnd1, hmono1, fun _ => hsame1 p2 none rfl⟩
              | some arr =>
                  obtain ⟨hnd2, hmono2, hsame2⟩ := ih s1 (args ++ [arr]) o s4 h
                  refine ⟨fun hn => hnd2 (hnd1 hn), trackMono_comp hmono1 hmono2, fun hr hn => ?_⟩
                  exact trackSame_comp (hsame1 p2 (some arr) rfl hn) (hsame2 hr (hnd1 hn))

/-- After marking, running dependency calls that preserve markers, and
unmarking, the tracking map carries exactly the original markers. -/
theorem restore_marks {P : Type} [DecidableEq P] {t t2 : List (Option P × List Nat)}
    {key : Option P} {n : Nat}
    (hnotin : trackMem t key n = false)
    (hsame12 : TrackSame (trackAdd t key n) t2)
    (hnd2 : TrackNodup t2) :
    TrackSame t (trackRemove t2 key n) := by
  intro k2 id2
  by_cases hk2 : k2 = key
  · by_cases hid2 : id2 = n
    · rw [hk2, hid2, trackMem_trackRemove_self (fun l hl => hnd2 key l hl) n, hnotin]
    · rw [trackMem_trackRemove_other _ _ _ _ _ (Or.inr hid2), hsame12 k2 id2,
        trackMem_trackAdd_other _ _ _ _ _ (Or.inr hid2)]
  · rw [trackMem_trackRemove_other _ _ _ _ _ (Or.inl hk2), hsame12 k2 id2,
      trackMem_trackAdd_other _ _ _ _ _ (Or.inl hk2)]

theorem computeBody_track {P : Type} [DecidableEq P] (sys : TaxSystem P)
    (computeFn : EngineState P → Nat → P → ComputeResult P × EngineState P)
    (hfn : ∀ s2 d p2 r2 s3, computeFn s2 d p2 = (r2, s3) →
      (TrackNodup s2.tracking → TrackNodup s3.tracking) ∧
      TrackMono s2.tracking s3.tracking ∧
      (∀ op a, r2 = .ok op a → TrackNodup s2.tracking → TrackSame s2.tracking s3.tracking))
    (s : EngineState P) (v : FormulaVar P) (key : Option P) (p : P) (lz : Bool)
    (r : ComputeResult P) (s4 : EngineState P)
    (hnotin : trackMem s.tracking key v.name = false)
    (hb : computeBody sys computeFn s v key p lz = (r, s4)) :
    (TrackNodup s.tracking → TrackNodup s4.tracking) ∧
    TrackMono s.tracking s4.tracking ∧
    (∀ op a, r = .ok op a → TrackNodup s.tracking → TrackSame s.tracking s4.tracking) := by
  have hfn2 : ∀ s2 d r2 s3,
      (fun s2 d => computeFn s2 d (v.varPeriod d (v.outputPeriod p))) s2 d = (r2, s3) →
      (TrackNodup s2.tracking → TrackNodup s3.tracking) ∧
      TrackMono s2.tracking s3.tracking ∧
      (∀ op a, r2 = .ok op a → TrackNodup s2.tracking → TrackSame s2.tracking s3.tracking) :=
    fun s2 d r2 s3 h => hfn s2 d _ r2 s3 h
  have hnd1 : TrackNodup s.tracking → TrackNodup (trackAdd s.tracking key v.name) :=
    fun hn => trackNodup_trackAdd key v.name hn
  have hmono1 : TrackMono s.tracking (trackAdd s.tracking key v.name) :=
    trackMono_trackMod s.tracking key _
  simp only [computeBody] at hb
  split at hb
  · -- cached array found: the dated holder is returned with the state
    -- unchanged
    cases hb
    exact ⟨fun h => h, trackMono_refl _, fun _ _ _ _ => trackSame_refl _⟩
  split at hb
  · -- a dependency raised: propagate without unmarking
    rename_i e s2 hdeps
    obtain ⟨hndd, hmonod, _⟩ := computeDepsWith_track _ hfn2 _ _ _ _ _ hdeps
    cases hb
    exact ⟨fun hn => hndd (hnd1 hn), trackMono_comp hmono1 hmonod, fun op a hok => by cases hok⟩
  · -- a dependency is absent
    rename_i d s2 hdeps
    obtain ⟨hndd, hmonod, hsamed⟩ := computeDepsWith_track _ hfn2 _ _ _ _ _ hdeps
    split at hb
    · -- lazy: unmark and return the cached-or-absent holder
      cases hb
      refine ⟨fun hn => trackNodup_trackRemove key v.name (hndd (hnd1 hn)),
        trackMono_comp (trackMono_comp hmono1 hmonod) (trackMono_trackRemove s2.tracking key v.name), fun op a _ hn => ?_⟩
      exact restore_marks hnotin (hsamed rfl (hnd1 hn)) (hndd (hnd1 hn))
    · -- not lazy: the missing-input assertion fails, no unmarking
      cases hb
      exact ⟨fun hn => hndd (hnd1 hn), trackMono_comp hmono1 hmonod, fun op a hok => by cases hok⟩
  · -- all dependencies resolved: invoke the function
    rename_i args s2 hdeps
    obtain ⟨hndd, hmonod, hsamed⟩ := computeDepsWith_track _ hfn2 _ _ _ _ _ hdeps
    split at hb
    · -- the function returned no array: unmark and return
      cases hb
      refine ⟨fun hn => trackNodup_trackRemove key v.name (hndd (hnd1 hn)),
        trackMono_comp (trackMono_comp hmono1 hmonod) (trackMono_trackRemove s2.tracking key v.name), fun op a _ hn => ?_⟩
      exact restore_marks hnotin (hsamed rfl (hnd1 hn)) (hndd (hnd1 hn))
    · -- the function returned an array
      split at hb
      · -- wrong array size: assertion fails, no unmarking
        cases hb
        exact ⟨fun hn => hndd (hnd1 hn), trackMono_comp hmono1 hmonod, fun op a hok => by cases hok⟩
      · split at hb
        · -- NaN outside debug mode: NaNCreationError, no unmarking
          cases hb
          exact ⟨fun hn => hndd (hnd1 hn), trackMono_comp hmono1 hmonod, fun op a hok => by cases hok⟩
        · -- store and unmark
          cases hb
          refine ⟨fun hn => trackNodup_trackRemove key v.name (hndd (hnd1 hn)),
            trackMono_comp (trackMono_comp hmono1 hmonod) (trackMono_trackRemove s2.tracking key v.name), fun op a _ hn => ?_⟩
          exact restore_marks hnotin (hsamed rfl (hnd1 hn)) (hndd (hnd1 hn))

theorem compute_track {P : Type} [DecidableEq P] (sys : TaxSystem P) :
    ∀ (fuel : Nat) (s : EngineState P) (id : Nat) (p : P) (lz : Bool)
      (r : ComputeResult P) (s4 : EngineState P),
      compute sys fuel s id p lz = (r, s4) →
      (TrackNodup s.tracking → TrackNodup s4.tracking) ∧
      TrackMono s.tracking s4.tracking ∧
      (∀ op a, r = .ok op a → TrackNodup s.tracking → TrackSame s.tracking s4.tracking) := by
  intro fuel
  induction fuel with
  | zero =>
      intro s id p lz r s4 h
      simp only [compute] at h
      cases h
      exact ⟨fun h => h, trackMono_refl _, fun op a hok => by cases hok⟩
  | succ fuel ih =>
      intro s id p lz r s4 h
      simp only [compute] at h
      cases hv : sys.findVar id with
      | none =>
          simp only [hv] at h
          cases h
          exact ⟨fun h => h, trackMono_refl _, fun op a hok => by cases hok⟩
      | some v =>
          simp only [hv] at h
          have hfn : ∀ s2 d p2 r2 s3,
              compute sys fuel s2 d p2 lz = (r2, s3) →
              (TrackNodup s2.tracking → TrackNodup s3.tracking) ∧
              TrackMono s2.tracking s3.tracking ∧
              (∀ op a, r2 = .ok op a → TrackNodup s2.tracking →
                TrackSame s2.tracking s3.tracking) :=
            fun s2 d p2 r2 s3 hh => ih s2 d p2 lz r2 s3 hh
          cases ht : trackLookup s.tracking (periodKey v p) with
          | none =>
              simp only [ht] at h
              have hcons := trackMem_consEmpty ht
              have hlk : trackLookup (((periodKey v p, []) ::
                  s.tracking : List (Option P × List Nat))) (periodKey v p) = some [] := by
                rw [trackLookup_consEmpty, if_pos rfl]
              obtain ⟨hndb, hmonob, hsameb⟩ := computeBody_track sys _ hfn
                { s with tracking := (periodKey v p, []) :: s.tracking } v
                (periodKey v p) p lz r s4
                (by rw [trackMem_of_lookup hlk]; simp) h
              refine ⟨fun hn => hndb (trackNodup_consEmpty _ hn),
                trackMono_comp (trackMono_consEmpty _ _) hmonob, fun op a hok hn => ?_⟩
              intro k2 id2
              rw [hsameb op a hok (trackNodup_consEmpty _ hn) k2 id2, hcons k2 id2]
          | some inSet =>
              simp only [ht] at h
              by_cases hmem : v.name ∈ inSet
              · rw [if_pos hmem] at h
                cases lz with
                | true =>
                    simp only [if_pos rfl] at h
                    cases h
                    exact ⟨fun hh => hh, trackMono_refl _, fun _ _ _ _ => trackSame_refl _⟩
                | false =>
                    simp only [Bool.false_eq_true, if_neg] at h
                    cases h
                    exact ⟨fun hh => hh, trackMono_refl _, fun op a hok => by cases hok⟩
              · rw [if_neg hmem] at h
                exact computeBody_track sys _ hfn s v (periodKey v p) p lz r s4
                  (by rw [trackMem_of_lookup ht]; simpa using hmem) h

/-! ### Engine lemmas: the Holder cache across `compute` -/

theorem computeBody_ok_cache {P : Type} [DecidableEq P] (sys : TaxSystem P)
    (computeFn : EngineState P → Nat → P → ComputeResult P × EngineState P)
    (s : EngineState P) (v : FormulaVar P) (key : Option P) (p : P) (lz : Bool)
    (op : P) (a2 : Option Arr) (s4 : EngineState P)
    (hb : computeBody sys computeFn s v key p lz = (.ok op a2, s4)) :
    op = v.outputPeriod p ∧
      ∀ a, a2 = some a → cacheLookup s4 (holderKey v (v.outputPeriod p)) = some a := by
  simp only [computeBody] at hb
  split at hb
  · rename_i arr hcache
    cases hb
    exact ⟨rfl, fun a ha => by cases ha; exact hcache⟩
  split at hb
  · cases hb
  · split at hb
    · cases hb
      exact ⟨rfl, fun a ha => ha⟩
    · cases hb
  · split at hb
    · cases hb
      exact ⟨rfl, fun a ha => ha⟩
    · split at hb
      · cases hb
      · split at hb
        · cases hb
        · rename_i arr hfunc hsize hnan
          cases hb
          refine ⟨rfl, fun a ha => ?_⟩
          cases ha
          simp [cacheLookup, assocLookup]

theorem compute_ok_cache {P : Type} [DecidableEq P] {sys : TaxSystem P} {fuel : Nat}
    {s : EngineState P} {id : Nat} {p : P} {op : P} {a : Arr} {s4 : EngineState P}
    {v : FormulaVar P} (hv : sys.findVar id = some v)
    (h : compute sys (fuel + 1) s id p false = (.ok op (some a), s4)) :
    op = v.outputPeriod p ∧ cacheLookup s4 (holderKey v (v.outputPeriod p)) = some a := by
  simp only [compute, hv] at h
  cases ht : trackLookup s.tracking (periodKey v p) with
  | none =>
      simp only [ht] at h
      obtain ⟨ho, hc⟩ := computeBody_ok_cache sys _ _ v (periodKey v p) p false op
        (some a) s4 h
      exact ⟨ho, hc a rfl⟩
  | some inSet =>
      simp only [ht] at h
      by_cases hmem : v.name ∈ inSet
      · rw [if_pos hmem] at h
        simp at h
      · rw [if_neg hmem] at h
        obtain ⟨ho, hc⟩ := computeBody_ok_cache sys _ s v (periodKey v p) p false op
          (some a) s4 h
        exact ⟨ho, hc a rfl⟩

theorem compute_ok_key {P : Type} [DecidableEq P] {sys : TaxSystem P} {fuel : Nat}
    {s : EngineState P} {id : Nat} {p : P} {lz : Bool} {op : P} {a : Option Arr}
    {s4 : EngineState P} {v : FormulaVar P} (hv : sys.findVar id = some v)
    (h : compute sys (fuel + 1) s id p lz = (.ok op a, s4)) :
    (trackLookup s4.tracking (periodKey v p)).isSome = true := by
  have hfn : ∀ s2 d p2 r2 s3,
      compute sys fuel s2 d p2 lz = (r2, s3) →
      (TrackNodup s2.tracking → TrackNodup s3.tracking) ∧
      TrackMono s2.tracking s3.tracking ∧
      (∀ op2 a2, r2 = .ok op2 a2 → TrackNodup s2.tracking →
        TrackSame s2.tracking s3.tracking) :=
    fun s2 d p2 r2 s3 hh => compute_track sys fuel s2 d p2 lz r2 s3 hh
  simp only [compute, hv] at h
  cases ht : trackLookup s.tracking (periodKey v p) with
  | none =>
      simp only [ht] at h
      have hlk : trackLookup (((periodKey v p, []) ::
          s.tracking : List (Option P × List Nat))) (periodKey v p) = some [] := by
        rw [trackLookup_consEmpty, if_pos rfl]
      have hmono := (computeBody_track sys _ hfn
        { s with tracking := (periodKey v p, []) :: s.tracking } v
        (periodKey v p) p lz _ s4
        (by rw [trackMem_of_lookup hlk]; simp) h).2.1
      apply hmono
      rw [hlk]
      rfl
  | some inSet =>
      simp only [ht] at h
      by_cases hmem : v.name ∈ inSet
      · rw [if_pos hmem] at h
        cases lz with
        | true =>
            simp only [if_pos rfl] at h
            cases h
            rw [ht]
            rfl
        | false =>
            simp at h
      · rw [if_neg hmem] at h
        have hmono := (computeBody_track sys _ hfn s v (periodKey v p) p lz _ s4
          (by rw [trackMem_of_lookup ht]; simpa using hmem) h).2.1
        apply hmono
        rw [ht]
        rfl

/-- A Holder cache hit: when the Holder already has an array for the
formula's computed output period, `compute` returns it immediately — the
dependency loop never runs and the underlying `function` is not invoked
(the state is unchanged but for the possibly-created empty tracking
entry, so in particular the invocation log is unchanged). -/
theorem compute_cachehit {P : Type} [DecidableEq P] (sys : TaxSystem P) (fuel : Nat)
    (s : EngineState P) (id : Nat) (p : P) (lz : Bool) (v : FormulaVar P) (a : Arr)
    (hv : sys.findVar id = some v)
    (hnm : trackMem s.tracking (periodKey v p) v.name = false)
    (hc : cacheLookup s (holderKey v (v.outputPeriod p)) = some a) :
    compute sys (fuel + 1) s id p lz =
      (.ok (v.outputPeriod p) (some a),
        { s with tracking := trackEnsure s.tracking (periodKey v p) }) := by
  cases ht : trackLookup s.tracking (periodKey v p) with
  | none =>
      simp only [compute, hv, ht, computeBody]
      rw [show cacheLookup { s with tracking := (periodKey v p, []) :: s.tracking }
        (holderKey v (v.outputPeriod p)) = some a from hc]
      simp [trackEnsure, ht]
  | some inSet =>
      have hnotin : v.name ∉ inSet := by
        rw [trackMem_of_lookup ht] at hnm
        simpa using hnm
      simp only [compute, hv, ht, if_neg hnotin, computeBody]
      rw [show cacheLookup s (holderKey v (v.outputPeriod p)) = some a from hc]
      simp [trackEnsure, ht]

/-! ### Claims about the evaluation engine (`SimpleFormula.compute`) -/

/-- C1.  Memoized idempotence.  First conjunct: when the Holder already
caches an array for the formula's computed output period, `compute` returns
that cached array immediately — the resulting state differs from the input
state only by the possibly-created empty tracking entry, so in particular
the invocation log is unchanged: the formula's `function` is not invoked.
Second conjunct: if a non-lazy `compute` of `(V, P)` returns an array, then
immediately repeating the same non-lazy `compute` returns the identical
array and leaves the state — including the invocation log — exactly
unchanged: across the two sequential computations the underlying `function`
is invoked at most once (only possibly during the first call). -/
theorem simpleFormula_compute_memoized {P : Type} [DecidableEq P] (sys : TaxSystem P)
    (fuel m : Nat) (s : EngineState P) (id : Nat) (p : P) (v : FormulaVar P) (a : Arr)
    (op : P) (s4 : EngineState P)
    (hv : sys.findVar id = some v)
    (hnd : TrackNodup s.tracking)
    (hnm : trackMem s.tracking (periodKey v p) v.name = false) :
    (cacheLookup s (holderKey v (v.outputPeriod p)) = some a →
      compute sys (fuel + 1) s id p false =
        (.ok (v.outputPeriod p) (some a),
          { s with tracking := trackEnsure s.tracking (periodKey v p) })) ∧
    (compute sys (fuel + 1) s id p false = (.ok op (some a), s4) →
      compute sys (m + 1) s4 id p false = (.ok op (some a), s4)) := by
  constructor
  · intro hc
    exact compute_cachehit sys fuel s id p false v a hv hnm hc
  · intro h1
    obtain ⟨hop, hcache⟩ := compute_ok_cache hv h1
    have hsame : TrackSame s.tracking s4.tracking :=
      (compute_track sys (fuel + 1) s id p false _ s4 h1).2.2 op (some a) rfl hnd
    have hnm4 : trackMem s4.tracking (periodKey v p) v.name = false := by
      rw [hsame (periodKey v p) v.name, hnm]
    have hkey := compute_ok_key hv h1
    have h2 := compute_cachehit sys m s4 id p false v a hv hnm4 hcache
    cases hk2 : trackLookup s4.tracking (periodKey v p) with
    | none => rw [hk2] at hkey; simp at hkey
    | some l =>
        rw [h2, hop]
        simp [trackEnsure, hk2]

/-- C1, witness: for the one-variable constant system, a call with the
Holder cache preset returns the cached array and only creates the empty
tracking entry; and re-running a completed non-lazy computation reproduces
its result with the state unchanged. -/
theorem simpleFormula_compute_memoized_witness :
    (compute constSystem 3 ⟨[((0, some 0), [Val.num 7])], [], []⟩ 0 0 false =
        (.ok 0 (some [Val.num 7]),
          ⟨[((0, some 0), [Val.num 7])], [(some 0, [])], []⟩)) ∧
    (compute constSystem 3 ⟨[((0, some 0), [Val.num 7])], [(some 0, [])], []⟩ 0 0 false =
        (.ok 0 (some [Val.num 7]),
          ⟨[((0, some 0), [Val.num 7])], [(some 0, [])], []⟩)) := by
  have hthm := simpleFormula_compute_memoized constSystem 2 2
    ⟨[((0, some 0), [Val.num 7])], [], []⟩ 0 0
    ⟨0, false, 1, [], fun _ _ => some [Val.num 7], fun p => p, fun _ p => p⟩
    [Val.num 7] 0 ⟨[((0, some 0), [Val.num 7])], [(some 0, [])], []⟩
    rfl (fun k l hl => by simp [trackLookup, assocLookup] at hl) rfl
  exact ⟨hthm.1 rfl, hthm.2 (by decide)⟩

/-- C2.  Cycle detection: when `compute` is re-entered for a period key for
which this formula is already in the in-progress set, a lazy call returns
the Holder's cached-or-absent value at the requested period without
recursing (the state is returned untouched), and a non-lazy call raises the
infinite-loop assertion carrying the computed variable's name and the
sorted names of all variables currently in progress for that key. -/
theorem simpleFormula_compute_cycle {P : Type} [DecidableEq P] (sys : TaxSystem P)
    (fuel : Nat) (s : EngineState P) (id : Nat) (p : P) (v : FormulaVar P)
    (inSet : List Nat)
    (hv : sys.findVar id = some v)
    (hset : trackLookup s.tracking (periodKey v p) = some inSet)
    (hmem : v.name ∈ inSet) :
    compute sys (fuel + 1) s id p true =
        (.ok p (cacheLookup s (holderKey v p)), s) ∧
      compute sys (fuel + 1) s id p false =
        (.raised (.cycle v.name (sortNat inSet.dedup)), s) := by
  constructor <;> simp [compute, hv, hset, hmem]

/-- C2, witness: with variable `0` already marked in progress for period
`0`, the lazy re-entry returns the absent holder value and the non-lazy
re-entry raises the cycle error naming variable `0` and the in-progress
set `[0]`. -/
theorem simpleFormula_compute_cycle_witness :
    compute constSystem 1 ⟨[], [(some 0, [0])], []⟩ 0 0 true =
        (.ok 0 none, ⟨[], [(some 0, [0])], []⟩) ∧
      compute constSystem 1 ⟨[], [(some 0, [0])], []⟩ 0 0 false =
        (.raised (.cycle 0 [0]), ⟨[], [(some 0, [0])], []⟩) := by
  exact simpleFormula_compute_cycle constSystem 0 ⟨[], [(some 0, [0])], []⟩ 0 0
    ⟨0, false, 1, [], fun _ _ => some [Val.num 7], fun p => p, fun _ p => p⟩
    [0] rfl rfl (by decide)

/-- C7, counterexample: the claim "every compute implementation removes the
formula from the per-period-key in-progress set on every exit path —
including failure" is false on the code.  There is no `try/finally` around
the marker: for the one-variable system whose function returns `[NaN]`, the
top-level non-lazy `compute` terminates by raising `NaNCreationError`, and
afterwards the tracking structure still contains formula `0` marked
in-progress for period key `some 0`. -/
theorem inProgress_marker_leaks_on_failure :
    (compute nanFormulaSystem 2 emptyState 0 0 false).1 =
        .raised (.nanCreation 0 [0]) ∧
      trackMem (compute nanFormulaSystem 2 emptyState 0 0 false).2.tracking
        (some 0) 0 = true := by decide

/-- C7 (amended).  `SimpleFormula.compute` removes the in-progress marker on
its returning exit paths — normal success and the lazy-absent return — so
a `compute` that terminates by returning (rather than raising) leaves the
tracking structure with exactly the in-progress markers it started from; in
particular a top-level call started with no marks ends with no formula
marked in-progress.  (On raising exit paths — the missing-input assertion,
the shape-validation assertion and the NaN error — the marker is *not*
removed, as the counterexample shows: the removal at line 616 is not in a
`finally` block.) -/
theorem compute_ok_restores_markers {P : Type} [DecidableEq P] (sys : TaxSystem P)
    (fuel : Nat) (s : EngineState P) (id : Nat) (p : P) (lz : Bool) (op : P)
    (a : Option Arr) (s4 : EngineState P)
    (hnd : TrackNodup s.tracking)
    (h : compute sys fuel s id p lz = (.ok op a, s4)) :
    ∀ k n, trackMem s4.tracking k n = trackMem s.tracking k n :=
  (compute_track sys fuel s id p lz _ s4 h).2.2 op a rfl hnd

/-- C7 (amended), witness: a successful top-level computation of the
constant system leaves every in-progress marker as it found it. -/
theorem compute_ok_restores_markers_witness :
    trackMem (⟨[((0, some 0), [Val.num 7])], [(some 0, [])], [0]⟩ :
        EngineState Int).tracking (some 0) 0 =
      trackMem emptyState.tracking (some 0) 0 := by
  have h : compute constSystem 2 emptyState 0 0 false =
      (.ok 0 (some [Val.num 7]),
        ⟨[((0, some 0), [Val.num 7])], [(some 0, [])], [0]⟩) := by decide
  exact compute_ok_restores_markers constSystem 2 emptyState 0 0 false 0
    (some [Val.num 7]) ⟨[((0, some 0), [Val.num 7])], [(some 0, [])], [0]⟩
    (fun k l hl => by simp [trackLookup, assocLookup] at hl) h (some 0) 0

/-- C8.  Result validation with atomicity: when the formula's `function`
returns an array whose element count differs from the target entity's
population count, `compute` raises the wrong-size contract violation
(naming the variable, the returned size and the expected size); when it
returns a numeric array containing a NaN value outside debug mode, it
raises `NaNCreationError` reporting the offending indices.  In both cases
the returned state is the post-dependency state with only the invocation
logged: nothing is stored, so the Holder's cache for the output period
remains unset. -/
theorem simpleFormula_compute_validation {P : Type} [DecidableEq P] (sys : TaxSystem P)
    (fuel : Nat) (s : EngineState P) (id : Nat) (p : P) (lz : Bool) (v : FormulaVar P)
    (inSet : List Nat) (args : List Arr) (arr : Arr) (s2 : EngineState P)
    (hv : sys.findVar id = some v)
    (hset : trackLookup s.tracking (periodKey v p) = some inSet)
    (hnotin : v.name ∉ inSet)
    (hmiss : cacheLookup s (holderKey v (v.outputPeriod p)) = none)
    (hdeps : computeDepsWith (fun s3 d => compute sys fuel s3 d
        (v.varPeriod d (v.outputPeriod p)) lz)
      { s with tracking := trackAdd s.tracking (periodKey v p) v.name } v.deps [] =
        (.done args, s2))
    (hfn : v.func args (v.outputPeriod p) = some arr)
    (hnocache : cacheLookup s2 (holderKey v (v.outputPeriod p)) = none) :
    (arr.length ≠ v.entityCount →
      compute sys (fuel + 1) s id p lz =
          (.raised (.wrongSize v.name arr.length v.entityCount),
            { s2 with invocations := s2.invocations ++ [v.name] }) ∧
        cacheLookup { s2 with invocations := s2.invocations ++ [v.name] }
          (holderKey v (v.outputPeriod p)) = none) ∧
    (arr.length = v.entityCount → sys.debug = false → hasNan arr = true →
      compute sys (fuel + 1) s id p lz =
          (.raised (.nanCreation v.name (nanIndices arr)),
            { s2 with invocations := s2.invocations ++ [v.name] }) ∧
        cacheLookup { s2 with invocations := s2.invocations ++ [v.name] }
          (holderKey v (v.outputPeriod p)) = none) := by
  have hred : compute sys (fuel + 1) s id p lz =
      (if arr.length ≠ v.entityCount then
        (.raised (.wrongSize v.name arr.length v.entityCount),
          { s2 with invocations := s2.invocations ++ [v.name] })
      else if !sys.debug && hasNan arr then
        (.raised (.nanCreation v.name (nanIndices arr)),
          { s2 with invocations := s2.invocations ++ [v.name] })
      else
        (.ok (v.outputPeriod p) (some arr),
          { s2 with
              cache := (holderKey v (v.outputPeriod p), arr) :: s2.cache,
              invocations := s2.invocations ++ [v.name],
              tracking := trackRemove s2.tracking (periodKey v p) v.name })) := by
    simp only [compute, hv, hset, if_neg hnotin, computeBody, hmiss, hdeps, hfn]
  constructor
  · intro hlen
    rw [hred, if_pos hlen]
    exact ⟨rfl, hnocache⟩
  · intro hlen hdebug hnan
    rw [hred, if_neg (fun hne => hne hlen)]
    rw [if_pos (by rw [hdebug, hnan]; rfl)]
    exact ⟨rfl, hnocache⟩

/-- C8, witness: the wrong-size system (entity count 2, function returning
a 1-element array) raises the contract violation, and the NaN system raises
`NaNCreationError` at index 0; in both runs the Holder cache slot for the
output period is still unset afterwards. -/
theorem simpleFormula_compute_validation_witness :
    (compute wrongSizeSystem 1 ⟨[], [(some 0, [])], []⟩ 0 0 false =
        (.raised (.wrongSize 0 1 2), ⟨[], [(some 0, [0])], [0]⟩) ∧
      cacheLookup (⟨[], [(some 0, [0])], [0]⟩ : EngineState Int) (0, some 0) = none) ∧
    (compute nanFormulaSystem 1 ⟨[], [(some 0, [])], []⟩ 0 0 false =
        (.raised (.nanCreation 0 [0]), ⟨[], [(some 0, [0])], [0]⟩) ∧
      cacheLookup (⟨[], [(some 0, [0])], [0]⟩ : EngineState Int) (0, some 0) = none) := by
  constructor
  · exact (simpleFormula_compute_validation wrongSizeSystem 0 ⟨[], [(some 0, [])], []⟩
      0 0 false ⟨0, false, 2, [], fun _ _ => some [Val.num 1], fun p => p, fun _ p => p⟩
      [] [] [Val.num 1] ⟨[], [(some 0, [0])], []⟩
      rfl rfl (by decide) rfl (by decide) rfl rfl).1 (by decide)
  · exact (simpleFormula_compute_validation nanFormulaSystem 0 ⟨[], [(some 0, [])], []⟩
      0 0 false ⟨0, false, 1, [], fun _ _ => some [Val.nan], fun p => p, fun _ p => p⟩
      [] [] [Val.nan] ⟨[], [(some 0, [0])], []⟩
      rfl rfl (by decide) rfl (by decide) rfl rfl).2 (by decide) rfl (by decide)

/-! ### Scatter/gather lemmas -/

theorem castWrite_length (array : List Int) (role : Nat) :
    ∀ (ps : List Person) (ts : List Int), (castWrite array role ps ts).length = ts.length := by
  intro ps
  induction ps with
  | nil => intro ts; simp [castWrite]
  | cons p ps ih =>
      intro ts
      cases ts with
      | nil => simp [castWrite]
      | cons t ts2 => simp [castWrite, ih]

theorem scatterWrite_length (role : Nat) :
    ∀ (ps : List Person) (as2 t : List Int),
      (scatterWrite role ps as2 t).length = t.length := by
  intro ps
  induction ps with
  | nil => intro as2 t; simp [scatterWrite]
  | cons p ps ih =>
      intro as2 t
      cases as2 with
      | nil => simp [scatterWrite]
      | cons a as3 =>
          simp only [scatterWrite]
          rw [ih as3 _]
          split <;> simp

theorem scatterWrite_getElem_nomatch (role : Nat) (g : Nat) :
    ∀ (ps : List Person) (as2 t : List Int),
      (∀ p ∈ ps, ¬(p.roleCode = role ∧ p.groupRow = g)) →
      (scatterWrite role ps as2 t)[g]? = t[g]? := by
  intro ps
  induction ps with
  | nil => intro as2 t _; simp [scatterWrite]
  | cons p ps ih =>
      intro as2 t hno
      cases as2 with
      | nil => simp [scatterWrite]
      | cons a as3 =>
          simp only [scatterWrite]
          rw [ih as3 _ (fun q hq => hno q (List.mem_cons_of_mem _ hq))]
          by_cases hc : p.roleCode = role
          · rw [if_pos hc]
            have hgr : p.groupRow ≠ g :=
              fun h => hno p (List.mem_cons_self p ps) ⟨hc, h⟩
            exact List.getElem?_set_ne hgr
          · rw [if_neg hc]

theorem scatterWrite_getElem_last (role : Nat) (g : Nat) :
    ∀ (ps : List Person) (as2 t : List Int) (i : Nat) (p : Person),
      ps[i]? = some p → i < as2.length →
      p.roleCode = role → p.groupRow = g → g < t.length →
      (∀ j q, i < j → ps[j]? = some q → ¬(q.roleCode = role ∧ q.groupRow = g)) →
      (scatterWrite role ps as2 t)[g]? = as2[i]? := by
  intro ps
  induction ps with
  | nil => intro as2 t i p hp; simp at hp
  | cons p0 ps ih =>
      intro as2 t i p hp hi hrole hgrow hgt hlast
      cases as2 with
      | nil => simp at hi
      | cons a as3 =>
          cases i with
          | zero =>
              simp only [List.getElem?_cons_zero, Option.some.injEq] at hp
              subst hp
              simp only [scatterWrite]
              rw [scatterWrite_getElem_nomatch role g ps as3 _ ?later]
              case later =>
                intro q hq
                obtain ⟨j, hj⟩ := List.mem_iff_getElem?.1 hq
                exact hlast (j + 1) q (Nat.succ_pos j) (by simpa using hj)
              rw [if_pos hrole, hgrow, List.getElem?_set_self hgt]
              simp
          | succ j =>
              simp only [List.getElem?_cons_succ] at hp
              simp only [scatterWrite, List.getElem?_cons_succ]
              apply ih as3 _ j p hp (by simpa using hi) hrole hgrow
              · split <;> simpa using hgt
              · intro j2 q hij2 hj2
                exact hlast (j2 + 1) q (by omega) (by simpa using hj2)

theorem castWrite_getElem (array : List Int) (role : Nat) :
    ∀ (ps : List Person) (ts : List Int) (i : Nat) (p : Person),
      ps[i]? = some p → i < ts.length →
      (castWrite array role ps ts)[i]? =
        some (if p.roleCode = role then array.getD p.groupRow 0 else ts.getD i 0) := by
  intro ps
  induction ps with
  | nil => intro ts i p hp; simp at hp
  | cons p0 ps ih =>
      intro ts i p hp hi
      cases ts with
      | nil => simp at hi
      | cons t ts2 =>
          cases i with
          | zero =>
              simp only [List.getElem?_cons_zero, Option.some.injEq] at hp
              subst hp
              simp [castWrite]
          | succ j =>
              simp only [List.getElem?_cons_succ] at hp
              simp only [castWrite, List.getElem?_cons_succ]
              rw [ih ts2 j p hp (by simpa using hi)]
              simp

/-! ### Claims about the role scatter/gather operations -/

/-- C9.  Scatter/gather round trip: for a group-entity array `G`, a role
code `R` and a default `d`, if every group row (every index of `G`) is held
by exactly one person with role `R` (and every person's group row is a
valid index of `G`, as numpy's indexing requires), then gathering after
scattering is the identity:
`filter_role(cast_from_entity_to_role(G, default = d, role = R),
default = d, role = R) = G` elementwise. -/
theorem cast_filter_role_roundtrip (persons : List Person) (G : List Int) (d : Int)
    (R : Nat)
    (hbound : ∀ p ∈ persons, p.groupRow < G.length)
    (huniq : ∀ g, g < G.length → ∃ i : Fin persons.length,
      ((persons.get i).roleCode = R ∧ (persons.get i).groupRow = g) ∧
      ∀ j : Fin persons.length,
        ((persons.get j).roleCode = R ∧ (persons.get j).groupRow = g) → j = i) :
    filter_role persons G.length (cast_from_entity_to_role persons G d R) d R = G := by
  have hc : cast_from_entity_to_role persons G d R =
      castWrite G R persons (List.replicate persons.length d) := rfl
  have hcastlen : (cast_from_entity_to_role persons G d R).length = persons.length := by
    rw [hc, castWrite_length]
    simp
  apply List.ext_getElem?
  intro n
  by_cases hn : n < G.length
  · obtain ⟨i0, ⟨hrole, hgrow⟩, huniq2⟩ := huniq n hn
    have hget : persons[i0.val]? = some (persons.get i0) := by
      rw [List.getElem?_eq_getElem i0.isLt]
      rfl
    have hlast : ∀ j q, i0.val < j → persons[j]? = some q →
        ¬(q.roleCode = R ∧ q.groupRow = n) := by
      intro j q hij hj hq
      have hjlen : j < persons.length := by
        by_contra hge
        rw [List.getElem?_eq_none (Nat.le_of_not_lt hge)] at hj
        cases hj
      have hqeq : persons.get ⟨j, hjlen⟩ = q := by
        rw [List.getElem?_eq_getElem hjlen] at hj
        exact Option.some.inj hj
      have := huniq2 ⟨j, hjlen⟩ (by rw [hqeq]; exact hq)
      have : j = i0.val := congrArg Fin.val this
      omega
    have hstep : (filter_role persons G.length
          (cast_from_entity_to_role persons G d R) d R)[n]? =
        (cast_from_entity_to_role persons G d R)[i0.val]? :=
      scatterWrite_getElem_last R n persons _ _ i0.val (persons.get i0) hget
        (by rw [hcastlen]; exact i0.isLt) hrole hgrow (by simpa using hn) hlast
    rw [hstep, hc,
      castWrite_getElem G R persons _ i0.val (persons.get i0) hget (by simpa using i0.isLt),
      if_pos hrole, hgrow, List.getElem?_eq_getElem hn]
    simp [List.getD_eq_getElem?_getD, List.getElem?_eq_getElem hn]
  · have hlen : (filter_role persons G.length
        (cast_from_entity_to_role persons G d R) d R).length = G.length := by
      rw [filter_role, scatterWrite_length]
      simp
    rw [List.getElem?_eq_none (by rw [hlen]; exact Nat.le_of_not_lt hn),
      List.getElem?_eq_none (Nat.le_of_not_lt hn)]

/-- C9, witness: two persons with role 0 in groups 0 and 1 — scattering the
group array `[3, 7]` to the persons and gathering it back is the
identity. -/
theorem cast_filter_role_roundtrip_witness :
    filter_role [⟨0, 0⟩, ⟨1, 0⟩] 2
        (cast_from_entity_to_role [⟨0, 0⟩, ⟨1, 0⟩] [3, 7] 9 0) 9 0 = [3, 7] :=
  cast_filter_role_roundtrip [⟨0, 0⟩, ⟨1, 0⟩] [3, 7] 9 0 (by decide) (by decide)

/-- C10 (implicit claim).  `split_by_roles` with `roles = None` returns a
mapping whose keys are exactly the role codes `0` to
`max(entity.roles_count, 11) - 1` — at least 11 entries even for an entity
declaring fewer roles — and each key maps to an array whose length is the
group-entity count, holding the default at every row no individual with
that role occupies. -/
theorem split_by_roles_none_keys (persons : List Person) (e : GroupEntity)
    (array : List Int) (d : Int) :
    (split_by_roles persons e array d none).map Prod.fst =
        List.range (max e.rolesCount 11) ∧
      (∀ pr ∈ split_by_roles persons e array d none, pr.2.length = e.count) ∧
      (∀ pr ∈ split_by_roles persons e array d none, ∀ g, g < e.count →
        (∀ p ∈ persons, ¬(p.roleCode = pr.1 ∧ p.groupRow = g)) →
        pr.2[g]? = some d) := by
  refine ⟨?_, ?_, ?_⟩
  · simp only [split_by_roles, List.map_map]
    have hcomp : (Prod.fst ∘ fun role =>
        (role, scatterWrite role persons array (List.replicate e.count d))) =
          fun role => role := rfl
    rw [hcomp, List.map_id']
  · intro pr hpr
    simp only [split_by_roles, List.mem_map] at hpr
    obtain ⟨role, _, hpr⟩ := hpr
    rw [← hpr]
    simp [scatterWrite_length]
  · intro pr hpr g hg hno
    simp only [split_by_roles, List.mem_map] at hpr
    obtain ⟨role, _, hpr⟩ := hpr
    subst hpr
    rw [scatterWrite_getElem_nomatch role g persons array _ hno]
    simp [hg]

/-- C10, witness: an entity declaring only 3 roles still gets the 11 role
entries `0..10`; role 4 is held by nobody, so its array is the default-fill
`[9, 9]` of length `entity.count = 2`. -/
theorem split_by_roles_none_keys_witness :
    (split_by_roles [⟨0, 0⟩, ⟨1, 0⟩] ⟨2, 3⟩ [5, 6] 9 none).map Prod.fst =
        List.range (max 3 11) ∧
      ((4, ([9, 9] : List Int)) ∈ split_by_roles [⟨0, 0⟩, ⟨1, 0⟩] ⟨2, 3⟩ [5, 6] 9 none ∧
        ([9, 9] : List Int).length = (⟨2, 3⟩ : GroupEntity).count) ∧
      (([9, 9] : List Int)[1]? = some 9) := by
  refine ⟨(split_by_roles_none_keys [⟨0, 0⟩, ⟨1, 0⟩] ⟨2, 3⟩ [5, 6] 9).1,
    ⟨by decide, (split_by_roles_none_keys [⟨0, 0⟩, ⟨1, 0⟩] ⟨2, 3⟩ [5, 6] 9).2.1
      (4, [9, 9]) (by decide)⟩,
    (split_by_roles_none_keys [⟨0, 0⟩, ⟨1, 0⟩] ⟨2, 3⟩ [5, 6] 9).2.2
      (4, [9, 9]) (by decide) 1 (by decide) (by decide)⟩

end OpenFisca






